import Mathlib

/-!
A shallow embedding of `scripts/download_mods.py` (repository The-Kitchen)
together with proofs about its three components: the input loader
`load_project_ids`, the release selector `pick_latest_release`, and the
orchestrator `main` (modelled as an effect trace).

Conventions of the embedding:
* JSON values parsed by `json.load` are modelled by the inductive `Json`
  (the program never branches on booleans or floats, so those constructors
  are omitted; Python `dict` is an association list with its lookup).
* A Python exception that escapes (SystemExit, KeyError, TypeError, an
  HTTP error from `raise_for_status`) is an `Except.error` carrying `PyErr`.
* Python string comparison (used by `candidates.sort(key=...)`) is
  code-point lexicographic comparison; it is modelled by the executable
  `strLt` on the character list of the string.
* `main`'s observable actions on the staging directory and the network are
  recorded as a list of `Effect`s, in program order.
-/

namespace DownloadMods

/-- JSON values, as far as this program inspects them. -/
inductive Json where
  | int (n : Int)
  | str (s : String)
  | null
  | arr (xs : List Json)
  | obj (kvs : List (String × Json))

/-- An escaping Python exception: `raise SystemExit(msg)`, a `KeyError`
from `x["k"]`, a `TypeError` from indexing or iterating a wrong type,
or an HTTP error raised by `response.raise_for_status()`. -/
inductive PyErr where
  | systemExit (msg : String)
  | keyError
  | typeError
  | httpError
deriving DecidableEq

/-- Lookup of a key in a Python dict modelled as an association list
(`k in d` / `d[k]`). -/
def getKey (k : String) : List (String × Json) → Option Json
  | [] => none
  | (k2, v) :: rest => if k2 = k then some v else getKey k rest

/-- `isinstance(x, dict)`. -/
def Json.isObjB : Json → Bool
  | Json.obj _ => true
  | _ => false

/-- `isinstance(x, int)`. -/
def Json.isIntB : Json → Bool
  | Json.int _ => true
  | _ => false

/-- The comprehension `[x["projectID"] for x in xs]`: each element must be
a dict containing the key `"projectID"`; the first offending element
raises (KeyError when the key is missing, TypeError when the element is
not a dict). -/
def projIDs : List Json → Except PyErr (List Json)
  | [] => Except.ok []
  | x :: xs =>
    match x with
    | Json.obj kv =>
      match getKey "projectID" kv with
      | some v =>
        match projIDs xs with
        | Except.ok vs => Except.ok (v :: vs)
        | Except.error e => Except.error e
      | none => Except.error PyErr.keyError
    | _ => Except.error PyErr.typeError

/-- The SystemExit message of the input loader. -/
def unrecognizedMsg : String :=
  "Unrecognized input JSON format. Provide manifest.json or a list of projectIDs."

/-- `load_project_ids`, lines 6-17 of the source, applied to the parsed
JSON value (file opening and `json.load` are outside the model):
a dict containing `"files"` is treated as a manifest; a list that is all
dicts or all ints is accepted; everything else raises SystemExit. -/
def load_project_ids (data : Json) : Except PyErr (List Json) :=
  match data with
  | Json.obj kvs =>
    match getKey "files" kvs with
    | some (Json.arr xs) => projIDs xs
    | some _ => Except.error PyErr.typeError
    | none => Except.error (PyErr.systemExit unrecognizedMsg)
  | Json.arr xs =>
    if xs.all Json.isObjB then projIDs xs
    else if xs.all Json.isIntB then Except.ok xs
    else Except.error (PyErr.systemExit unrecognizedMsg)
  | _ => Except.error (PyErr.systemExit unrecognizedMsg)

/-- One CurseForge file metadata record, with exactly the keys the script
reads. `none` in an `Option` field models the key being absent (for
`gameVersions` it also covers JSON `null`, which `f.get(...) or []`
collapses to the empty list just like absence). -/
structure FileRecord where
  fileName : Option String
  downloadUrl : Option String
  gameVersions : Option (List String)
  releaseType : Option Int
  fileDate : Option String
deriving DecidableEq

/-- `set(f.get("gameVersions") or [])` — membership below is membership in
this list, which agrees with membership in the set it builds. -/
def gvOf (f : FileRecord) : List String :=
  f.gameVersions.getD []

/-- `f.get("releaseType", 3)`. -/
def rtOf (f : FileRecord) : Int :=
  f.releaseType.getD 3

/-- `f.get("fileDate", "")`, the sort key of the selector. -/
def keyOf (f : FileRecord) : String :=
  f.fileDate.getD ""

/-- Code-point lexicographic strict comparison of character lists: the
order Python uses to compare `str` values. -/
def strLt : List Char → List Char → Bool
  | [], [] => false
  | [], _ :: _ => true
  | _ :: _, [] => false
  | a :: as, b :: bs =>
    if a < b then true
    else if b < a then false
    else strLt as bs

/-- `keyOf f < keyOf g` as Python compares the sort keys. -/
def keyLt (f g : FileRecord) : Bool :=
  strLt (keyOf f).data (keyOf g).data

/-- The inner predicate `ok(f, allow_prerelease)` of `pick_latest_release`
(lines 21-29): the MC version must be among `gameVersions`; a non-empty
loader tag must be too; then the release type is checked. -/
def ok (mc_ver loader : String) (f : FileRecord) (allow_prerelease : Bool) : Bool :=
  if mc_ver ∉ gvOf f then false
  else if loader ≠ "" ∧ loader ∉ gvOf f then false
  else if allow_prerelease then rtOf f = 1 ∨ rtOf f = 2
  else rtOf f = 1

/-- Insert a record into a list already sorted by `fileDate` descending,
before the first element whose key is not greater: combined with
`sortDesc` this is a stable descending sort, the behaviour of
`candidates.sort(key=lambda f: f.get("fileDate",""), reverse=True)`. -/
def insertDesc (x : FileRecord) : List FileRecord → List FileRecord
  | [] => [x]
  | y :: ys => if keyLt x y then y :: insertDesc x ys else x :: y :: ys

/-- Stable sort by `fileDate` descending (insertion sort; agrees with
Python's stable `list.sort(..., reverse=True)`). -/
def sortDesc : List FileRecord → List FileRecord
  | [] => []
  | x :: xs => insertDesc x (sortDesc xs)

/-- The candidate list of `pick_latest_release` (lines 32-34): strict
filter first, recomputed with `allow_prerelease=True` only when it came
out empty and `allow_beta` is set. -/
def candidatesOf (files : List FileRecord) (mc_ver loader : String)
    (allow_beta : Bool) : List FileRecord :=
  let strict := files.filter (fun f => ok mc_ver loader f false)
  if strict.isEmpty && allow_beta then
    files.filter (fun f => ok mc_ver loader f true)
  else strict

/-- `pick_latest_release(files, mc_ver, loader, allow_beta)`, lines 19-37:
filter, sort newest-first by `fileDate`, return the head (or `none`). -/
def pick_latest_release (files : List FileRecord) (mc_ver loader : String)
    (allow_beta : Bool) : Option FileRecord :=
  (sortDesc (candidatesOf files mc_ver loader allow_beta)).head?

/-- `name.endswith(".jar")`: exact, case-sensitive suffix match. -/
def hasJarSuffix (name : String) : Bool :=
  ".jar".data.isSuffixOf name.data

/-- The observable actions of `main` on the staging directory and the
network, in program order. -/
inductive Effect where
  | makedirs
  | removeJar (name : String)
  | httpGet (pid : Json)
  | warn (pid : Json)
  | download (url : String)
  | write (name : String)
  | printDone

/-- Effect of one action on the staging directory, viewed as the set of
entry names it contains: `os.remove` deletes the named entry, a completed
download creates (or overwrites) the named file, everything else leaves
the directory alone. -/
def applyEffect (d : List String) : Effect → List String
  | Effect.removeJar n => d.filter (fun m => m ≠ n)
  | Effect.write n => if n ∈ d then d else d ++ [n]
  | _ => d

/-- The per-project loop of `main` (lines 61-79). `fetch pid` abstracts
the listing request for one project id — `Except.error` when
`raise_for_status` fires, otherwise the list extracted from the `data`
field (missing or null read as empty). `dl url` abstracts the streamed
download request the same way. Returns the effect trace and the outcome. -/
def runLoop (mc_ver loader : String) (allow_beta : Bool)
    (fetch : Json → Except PyErr (List FileRecord))
    (dl : String → Except PyErr Unit) :
    List Json → List Effect × Except PyErr Unit
  | [] => ([Effect.printDone], Except.ok ())
  | pid :: rest =>
    match fetch pid with
    | Except.error e => ([Effect.httpGet pid], Except.error e)
    | Except.ok files =>
      match pick_latest_release files mc_ver loader allow_beta with
      | none =>
        ((Effect.httpGet pid) :: (Effect.warn pid) ::
            (runLoop mc_ver loader allow_beta fetch dl rest).1,
          (runLoop mc_ver loader allow_beta fetch dl rest).2)
      | some chosen =>
        if chosen.downloadUrl.getD "" = "" then
          ((Effect.httpGet pid) :: (Effect.warn pid) ::
              (runLoop mc_ver loader allow_beta fetch dl rest).1,
            (runLoop mc_ver loader allow_beta fetch dl rest).2)
        else
          match chosen.fileName with
          | none => ([Effect.httpGet pid], Except.error PyErr.keyError)
          | some name =>
            match dl (chosen.downloadUrl.getD "") with
            | Except.error e =>
              ([Effect.httpGet pid, Effect.download (chosen.downloadUrl.getD "")],
                Except.error e)
            | Except.ok _ =>
              ((Effect.httpGet pid) ::
                  (Effect.download (chosen.downloadUrl.getD "")) ::
                  (Effect.write name) ::
                  (runLoop mc_ver loader allow_beta fetch dl rest).1,
                (runLoop mc_ver loader allow_beta fetch dl rest).2)

/-- `main` (lines 39-81) after argument parsing, as a function of its
environment: the API key (`none` = variable absent), the parsed input
JSON, the staging directory listing, and the two network oracles.
Program order: key check, `load_project_ids`, `os.makedirs`, the jar
pre-clean over `os.listdir`, then the per-project loop. -/
def mainRun (apiKey : Option String) (input : Json) (dirListing : List String)
    (fetch : Json → Except PyErr (List FileRecord))
    (dl : String → Except PyErr Unit)
    (mc_ver loader : String) (allow_beta : Bool) :
    List Effect × Except PyErr Unit :=
  if apiKey.getD "" = "" then
    ([], Except.error (PyErr.systemExit "Missing CURSEFORGE_API_KEY env var"))
  else
    match load_project_ids input with
    | Except.error e => ([], Except.error e)
    | Except.ok pids =>
      (Effect.makedirs ::
          ((dirListing.filter hasJarSuffix).map Effect.removeJar ++
            (runLoop mc_ver loader allow_beta fetch dl pids).1),
        (runLoop mc_ver loader allow_beta fetch dl pids).2)

theorem strLt_irrefl (l : List Char) : strLt l l = false := by
  induction l with
  | nil => rfl
  | cons a as ih => simp [strLt, lt_irrefl, ih]

theorem strLt_cons_iff (x y : Char) (xs ys : List Char) :
    strLt (x :: xs) (y :: ys) = true ↔ x < y ∨ (x = y ∧ strLt xs ys = true) := by
  by_cases hxy : x < y
  · simp [strLt, hxy]
  · by_cases hyx : y < x
    · have hne : ¬ x = y := fun h => absurd (h ▸ hyx) (lt_irrefl x)
      simp [strLt, hxy, hyx, hne]
    · have heq : x = y := le_antisymm (not_lt.mp hyx) (not_lt.mp hxy)
      simp [strLt, hxy, hyx, heq]

theorem strLt_trans : ∀ {a b c : List Char},
    strLt a b = true → strLt b c = true → strLt a c = true
  | [], _ :: _, _ :: _, _, _ => rfl
  | x :: xs, y :: ys, z :: zs, hab, hbc => by
    rcases (strLt_cons_iff x y xs ys).mp hab with hxy | ⟨hxy, hab2⟩
    · rcases (strLt_cons_iff y z ys zs).mp hbc with hyz | ⟨hyz, _⟩
      · exact (strLt_cons_iff x z xs zs).mpr (Or.inl (lt_trans hxy hyz))
      · exact (strLt_cons_iff x z xs zs).mpr (Or.inl (hyz ▸ hxy))
    · rcases (strLt_cons_iff y z ys zs).mp hbc with hyz | ⟨hyz, hbc2⟩
      · exact (strLt_cons_iff x z xs zs).mpr (Or.inl (hxy ▸ hyz))
      · exact (strLt_cons_iff x z xs zs).mpr
          (Or.inr ⟨hxy.trans hyz, strLt_trans hab2 hbc2⟩)

theorem strLt_trichotomy : ∀ (a b : List Char),
    strLt a b = true ∨ a = b ∨ strLt b a = true
  | [], [] => Or.inr (Or.inl rfl)
  | [], _ :: _ => Or.inl rfl
  | _ :: _, [] => Or.inr (Or.inr rfl)
  | x :: xs, y :: ys => by
    rcases lt_trichotomy x y with hxy | hxy | hxy
    · exact Or.inl ((strLt_cons_iff x y xs ys).mpr (Or.inl hxy))
    · rcases strLt_trichotomy xs ys with h | h | h
      · exact Or.inl ((strLt_cons_iff x y xs ys).mpr (Or.inr ⟨hxy, h⟩))
      · exact Or.inr (Or.inl (by rw [hxy, h]))
      · exact Or.inr (Or.inr ((strLt_cons_iff y x ys xs).mpr
          (Or.inr ⟨hxy.symm, h⟩)))
    · exact Or.inr (Or.inr ((strLt_cons_iff y x ys xs).mpr (Or.inl hxy)))

theorem strLt_asymm {a b : List Char} (h : strLt a b = true) :
    strLt b a = false := by
  by_contra hba
  have hba2 : strLt b a = true := by
    cases hb : strLt b a with
    | true => rfl
    | false => exact absurd hb hba
  have := strLt_trans h hba2
  rw [strLt_irrefl] at this
  exact Bool.false_ne_true this

theorem keyLt_irrefl (f : FileRecord) : keyLt f f = false :=
  strLt_irrefl _

theorem keyLt_asymm {f g : FileRecord} (h : keyLt f g = true) :
    keyLt g f = false :=
  strLt_asymm h

theorem keyLt_notLt_trans {f g h : FileRecord}
    (h1 : keyLt f g = false) (h2 : keyLt g h = false) : keyLt f h = false := by
  by_contra hfh
  have hfh2 : strLt (keyOf f).data (keyOf h).data = true := by
    cases hc : keyLt f h with
    | true => exact hc
    | false => exact absurd hc hfh
  rcases strLt_trichotomy (keyOf f).data (keyOf g).data with hfg | hfg | hgf
  · exact Bool.false_ne_true (h1 ▸ hfg)
  · have : strLt (keyOf g).data (keyOf h).data = true := hfg ▸ hfh2
    exact Bool.false_ne_true (h2 ▸ this)
  · have : strLt (keyOf g).data (keyOf h).data = true := strLt_trans hgf hfh2
    exact Bool.false_ne_true (h2 ▸ this)

theorem mem_insertDesc {g x : FileRecord} : ∀ {l : List FileRecord},
    g ∈ insertDesc x l ↔ g = x ∨ g ∈ l := by
  intro l
  induction l with
  | nil => simp [insertDesc]
  | cons y ys ih =>
    by_cases h : keyLt x y = true
    · rw [insertDesc, if_pos h, List.mem_cons, List.mem_cons, ih]
      tauto
    · rw [insertDesc, if_neg h, List.mem_cons, List.mem_cons]

theorem mem_sortDesc {g : FileRecord} : ∀ {l : List FileRecord},
    g ∈ sortDesc l ↔ g ∈ l := by
  intro l
  induction l with
  | nil => simp [sortDesc]
  | cons x xs ih =>
    rw [sortDesc, mem_insertDesc, List.mem_cons, ih]

theorem insertDesc_ne_nil (x : FileRecord) (l : List FileRecord) :
    insertDesc x l ≠ [] := by
  cases l with
  | nil => simp [insertDesc]
  | cons y ys =>
    rw [insertDesc]
    split <;> simp

theorem sortDesc_eq_nil {l : List FileRecord} (h : sortDesc l = []) : l = [] := by
  cases l with
  | nil => rfl
  | cons x xs => exact absurd h (insertDesc_ne_nil x (sortDesc xs))

theorem find?_mono {α : Type} {p q : α → Bool} : ∀ {l : List α} {a : α},
    l.find? p = some a → q a = true → (∀ f, q f = true → p f = true) →
    l.find? q = some a := by
  intro l
  induction l with
  | nil => intro a h; simp at h
  | cons z t ih =>
    intro a h hqa himp
    by_cases hz : p z = true
    · rw [List.find?_cons_of_pos _ hz] at h
      have : z = a := by injection h
      subst this
      rw [List.find?_cons_of_pos _ hqa]
    · rw [List.find?_cons_of_neg _ (by simp [hz])] at h
      have hqz : ¬ q z = true := fun hq => hz (himp z hq)
      rw [List.find?_cons_of_neg _ (by simp [hqz])]
      exact ih h hqa himp

theorem find?_split {α : Type} {p : α → Bool} : ∀ {l : List α} {a : α},
    l.find? p = some a →
    ∃ l₁ l₂, l = l₁ ++ a :: l₂ ∧ ∀ g ∈ l₁, p g = false := by
  intro l
  induction l with
  | nil => intro a h; simp at h
  | cons z t ih =>
    intro a h
    by_cases hz : p z = true
    · rw [List.find?_cons_of_pos _ hz] at h
      have : z = a := by injection h
      subst this
      exact ⟨[], t, rfl, by simp⟩
    · rw [List.find?_cons_of_neg _ (by simp [hz])] at h
      obtain ⟨l₁, l₂, heq, hall⟩ := ih h
      refine ⟨z :: l₁, l₂, by rw [heq, List.cons_append], ?_⟩
      intro g hg
      rcases List.mem_cons.mp hg with rfl | hg2
      · simpa using hz
      · exact hall g hg2

/-- A record is maximal for the candidate list when no member's key is
strictly greater than its own. -/
def isMaxIn (l : List FileRecord) (f : FileRecord) : Bool :=
  l.all (fun g => ! keyLt f g)

theorem head_sortDesc : ∀ (l : List FileRecord),
    (sortDesc l).head? = l.find? (isMaxIn l) := by
  intro l
  induction l with
  | nil => rfl
  | cons x t ih =>
    rw [sortDesc]
    cases hs : sortDesc t with
    | nil =>
      have ht : t = [] := sortDesc_eq_nil hs
      subst ht
      have hmax : isMaxIn [x] x = true := by
        rw [isMaxIn, List.all_cons, keyLt_irrefl]
        rfl
      rw [show insertDesc x [] = [x] from rfl, List.head?_cons,
        List.find?_cons_of_pos _ hmax]
    | cons y ys =>
      rw [hs] at ih
      have hy : t.find? (isMaxIn t) = some y := by
        rw [← ih]; rfl
      have hyt : y ∈ t := List.mem_of_find?_eq_some hy
      have hymax : isMaxIn t y = true := List.find?_some hy
      have hymax2 : ∀ g ∈ t, keyLt y g = false := by
        intro g hg
        have := (List.all_eq_true.mp hymax) g hg
        simpa using this
      by_cases hxy : keyLt x y = true
      · rw [insertDesc, if_pos hxy]
        have hpx : isMaxIn (x :: t) x = false := by
          rw [isMaxIn]
          apply List.all_eq_false.mpr
          exact ⟨y, List.mem_cons_of_mem x hyt, by simp [hxy]⟩
        rw [List.find?_cons_of_neg _ (by simp [hpx])]
        have hqy : isMaxIn (x :: t) y = true := by
          rw [isMaxIn, List.all_cons]
          have h1 : keyLt y x = false := keyLt_asymm hxy
          rw [h1]
          simp only [Bool.not_false, Bool.true_and]
          apply List.all_eq_true.mpr
          intro g hg
          simp [hymax2 g hg]
        have himp : ∀ f, isMaxIn (x :: t) f = true → isMaxIn t f = true := by
          intro f hf
          rw [isMaxIn, List.all_cons, Bool.and_eq_true] at hf
          exact hf.2
        rw [List.head?_cons]
        exact (find?_mono hy hqy himp).symm
      · rw [insertDesc, if_neg hxy, List.head?_cons]
        have hxyf : keyLt x y = false := by
          cases hc : keyLt x y with
          | true => exact absurd hc hxy
          | false => rfl
        have hpx : isMaxIn (x :: t) x = true := by
          rw [isMaxIn, List.all_cons, keyLt_irrefl]
          simp only [Bool.not_false, Bool.true_and]
          apply List.all_eq_true.mpr
          intro g hg
          simp [keyLt_notLt_trans hxyf (hymax2 g hg)]
        rw [List.find?_cons_of_pos _ hpx]

theorem runLoop_no_remove (mc_ver loader : String) (allow_beta : Bool)
    (fetch : Json → Except PyErr (List FileRecord))
    (dl : String → Except PyErr Unit) :
    ∀ (pids : List Json) (n : String),
      Effect.removeJar n ∉ (runLoop mc_ver loader allow_beta fetch dl pids).1 := by
  intro pids
  induction pids with
  | nil => intro n; simp [runLoop]
  | cons pid rest ih =>
    intro n
    cases hf : fetch pid with
    | error e => simp [runLoop, hf]
    | ok files =>
      cases hp : pick_latest_release files mc_ver loader allow_beta with
      | none => simp [runLoop, hf, hp, ih n]
      | some chosen =>
        by_cases hu : chosen.downloadUrl.getD "" = ""
        · simp [runLoop, hf, hp, hu, ih n]
        · cases hn : chosen.fileName with
          | none => simp [runLoop, hf, hp, hu, hn]
          | some name =>
            cases hd : dl (chosen.downloadUrl.getD "") with
            | error e => simp [runLoop, hf, hp, hu, hn, hd]
            | ok u => simp [runLoop, hf, hp, hu, hn, hd, ih n]

theorem mem_foldl_of_no_remove : ∀ (es : List Effect) (d : List String)
    (n : String), n ∈ d → Effect.removeJar n ∉ es →
    n ∈ es.foldl applyEffect d := by
  intro es
  induction es with
  | nil => intro d n hd _; exact hd
  | cons e es ih =>
    intro d n hd hmem
    have hne : e ≠ Effect.removeJar n := fun h => hmem (h ▸ List.mem_cons_self e es)
    have hes : Effect.removeJar n ∉ es := fun h => hmem (List.mem_cons_of_mem e h)
    rw [List.foldl_cons]
    apply ih _ n _ hes
    cases e with
    | removeJar m =>
      have hnm : n ≠ m := fun h => hne (by rw [h])
      simp [applyEffect, List.mem_filter, hd, hnm]
    | write m =>
      by_cases hmd : m ∈ d
      · simp [applyEffect, hmd, hd]
      · simp only [applyEffect, if_neg hmd]
        exact List.mem_append_left _ hd
    | makedirs => exact hd
    | httpGet p => exact hd
    | warn p => exact hd
    | download u => exact hd
    | printDone => exact hd

theorem mem_foldl_imp : ∀ (es : List Effect) (d : List String) (n : String),
    n ∈ es.foldl applyEffect d → n ∈ d ∨ Effect.write n ∈ es := by
  intro es
  induction es with
  | nil => intro d n h; exact Or.inl h
  | cons e es ih =>
    intro d n h
    rw [List.foldl_cons] at h
    rcases ih _ n h with hd | hw
    · cases e with
      | removeJar m =>
        rw [applyEffect] at hd
        exact Or.inl (List.mem_filter.mp hd).1
      | write m =>
        rw [applyEffect] at hd
        by_cases hmd : m ∈ d
        · rw [if_pos hmd] at hd
          exact Or.inl hd
        · rw [if_neg hmd] at hd
          rcases List.mem_append.mp hd with h1 | h2
          · exact Or.inl h1
          · have : n = m := by simpa using h2
            subst this
            exact Or.inr (List.mem_cons_self _ _)
      | makedirs => exact Or.inl hd
      | httpGet p => exact Or.inl hd
      | warn p => exact Or.inl hd
      | download u => exact Or.inl hd
      | printDone => exact Or.inl hd
    · exact Or.inr (List.mem_cons_of_mem e hw)

theorem mem_foldl_removes : ∀ (names : List String) (d : List String)
    (n : String), n ∈ (names.map Effect.removeJar).foldl applyEffect d →
    n ∈ d ∧ n ∉ names := by
  intro names
  induction names with
  | nil => intro d n h; exact ⟨h, by simp⟩
  | cons m ms ih =>
    intro d n h
    rw [List.map_cons, List.foldl_cons] at h
    obtain ⟨h1, h2⟩ := ih _ n h
    rw [applyEffect] at h1
    obtain ⟨hd, hnm⟩ := List.mem_filter.mp h1
    have hnm2 : n ≠ m := by simpa using hnm
    exact ⟨hd, by simp [hnm2, h2]⟩

/-- The relation between a manifest entry and the project id it
contributes: the entry is a dict and its `"projectID"` value is the id. -/
def entryHasID (x : Json) (v : Json) : Prop :=
  ∃ kv, x = Json.obj kv ∧ getKey "projectID" kv = some v

theorem projIDs_forall2 {xs : List Json} {ids : List Json}
    (h : List.Forall₂ entryHasID xs ids) : projIDs xs = Except.ok ids := by
  induction h with
  | nil => rfl
  | cons hxy htail ih =>
    obtain ⟨kv, rfl, hk⟩ := hxy
    simp only [projIDs, hk, ih]

theorem forall2_all_obj {xs : List Json} {ids : List Json}
    (h : List.Forall₂ entryHasID xs ids) : xs.all Json.isObjB = true := by
  induction h with
  | nil => rfl
  | cons hxy htail ih =>
    obtain ⟨kv, rfl, _⟩ := hxy
    rw [List.all_cons, ih, Json.isObjB]
    rfl

theorem ok_true_facts {mc_ver loader : String} {f : FileRecord} {pre : Bool}
    (h : ok mc_ver loader f pre = true) :
    mc_ver ∈ gvOf f ∧ (loader ≠ "" → loader ∈ gvOf f) ∧
    (pre = true → rtOf f = 1 ∨ rtOf f = 2) ∧ (pre = false → rtOf f = 1) := by
  rw [ok] at h
  by_cases h1 : mc_ver ∉ gvOf f
  · rw [if_pos h1] at h
    exact absurd h (by simp)
  · rw [if_neg h1] at h
    by_cases h2 : loader ≠ "" ∧ loader ∉ gvOf f
    · rw [if_pos h2] at h
      exact absurd h (by simp)
    · rw [if_neg h2] at h
      refine ⟨not_not.mp h1, ?_, ?_, ?_⟩
      · intro hne
        by_contra hmem
        exact h2 ⟨hne, hmem⟩
      · intro hpre
        rw [hpre, if_pos rfl] at h
        simpa using h
      · intro hpre
        rw [hpre] at h
        simp only [Bool.false_eq_true, if_neg] at h
        simpa using h

theorem ok_rt_ne_three {mc_ver loader : String} {f : FileRecord} {pre : Bool}
    (h : ok mc_ver loader f pre = true) : rtOf f ≠ 3 := by
  obtain ⟨_, _, h1, h2⟩ := ok_true_facts h
  cases pre with
  | false =>
    rw [h2 rfl]
    decide
  | true =>
    rcases h1 rfl with h3 | h3 <;> rw [h3] <;> decide

theorem mem_candidatesOf {files : List FileRecord} {mc_ver loader : String}
    {allow_beta : Bool} {r : FileRecord}
    (h : r ∈ candidatesOf files mc_ver loader allow_beta) :
    ok mc_ver loader r false = true ∨ ok mc_ver loader r true = true := by
  rw [candidatesOf] at h
  split at h
  · exact Or.inr (List.mem_filter.mp h).2
  · exact Or.inl (List.mem_filter.mp h).2

theorem pick_some_mem {files : List FileRecord} {mc_ver loader : String}
    {allow_beta : Bool} {r : FileRecord}
    (h : pick_latest_release files mc_ver loader allow_beta = some r) :
    r ∈ candidatesOf files mc_ver loader allow_beta := by
  rw [pick_latest_release] at h
  have : r ∈ sortDesc (candidatesOf files mc_ver loader allow_beta) := by
    cases hs : sortDesc (candidatesOf files mc_ver loader allow_beta) with
    | nil => rw [hs] at h; simp at h
    | cons a t =>
      rw [hs, List.head?_cons] at h
      have ha : a = r := by injection h
      rw [ha]
      exact List.mem_cons_self r t
  exact mem_sortDesc.mp this

/-- The January release of the worked selector example. -/
def janFile : FileRecord :=
  ⟨none, none, some ["1.20.1", "Forge"], some 1, some "2024-01-01"⟩

/-- The February release of the worked selector example. -/
def febFile : FileRecord :=
  ⟨none, none, some ["1.20.1", "Forge"], some 1, some "2024-02-01"⟩

/-- The lone beta file of the fallback example. -/
def betaFile : FileRecord :=
  ⟨none, none, some ["1.20.1", "Forge"], some 2, some "2024-01-01"⟩

/-- An alpha-tagged record. -/
def alphaFile : FileRecord :=
  ⟨none, none, some ["1.20.1", "Forge"], some 3, some "2024-01-01"⟩

/-- A release carrying the MC version but no loader tag. -/
def noLoaderFile : FileRecord :=
  ⟨none, none, some ["1.20.1"], some 1, some "2024-01-01"⟩

/-- A record with no `gameVersions` key at all. -/
def noGvFile : FileRecord :=
  ⟨none, none, none, some 1, some "2024-01-01"⟩

/-- A listing oracle whose every response is an empty file list. -/
def exFetch : Json → Except PyErr (List FileRecord) :=
  fun _ => Except.ok []

/-- A download oracle that always succeeds. -/
def exDl : String → Except PyErr Unit :=
  fun _ => Except.ok ()

/-- C1: whenever the candidate set of `pick_latest_release` is non-empty,
the function returns the eligible record whose `fileDate` string is
lexically greatest (missing `fileDate` read as `""`), and on equal
`fileDate` strings the record earliest in the input order wins: the
returned record occurs in the candidate list at a position where every
earlier candidate has a strictly smaller key and no candidate anywhere
has a strictly greater key. -/
theorem pick_latest_release_max_stable (files : List FileRecord)
    (mc_ver loader : String) (allow_beta : Bool)
    (h : candidatesOf files mc_ver loader allow_beta ≠ []) :
    ∃ r l₁ l₂,
      pick_latest_release files mc_ver loader allow_beta = some r ∧
      candidatesOf files mc_ver loader allow_beta = l₁ ++ r :: l₂ ∧
      (∀ g ∈ candidatesOf files mc_ver loader allow_beta, keyLt r g = false) ∧
      (∀ g ∈ l₁, keyLt g r = true) := by
  have hne : sortDesc (candidatesOf files mc_ver loader allow_beta) ≠ [] :=
    fun hnil => h (sortDesc_eq_nil hnil)
  obtain ⟨r, hr⟩ : ∃ r,
      (sortDesc (candidatesOf files mc_ver loader allow_beta)).head? = some r := by
    cases hs : sortDesc (candidatesOf files mc_ver loader allow_beta) with
    | nil => exact absurd hs hne
    | cons a t => exact ⟨a, rfl⟩
  have hfind : (candidatesOf files mc_ver loader allow_beta).find?
      (isMaxIn (candidatesOf files mc_ver loader allow_beta)) = some r := by
    rw [← head_sortDesc]
    exact hr
  have hmax : isMaxIn (candidatesOf files mc_ver loader allow_beta) r = true :=
    List.find?_some hfind
  have hmax2 : ∀ g ∈ candidatesOf files mc_ver loader allow_beta,
      keyLt r g = false := by
    intro g hg
    have := List.all_eq_true.mp hmax g hg
    simpa using this
  obtain ⟨l₁, l₂, heq, hall⟩ := find?_split hfind
  refine ⟨r, l₁, l₂, hr, heq, hmax2, ?_⟩
  intro g hg
  have hgmem : g ∈ candidatesOf files mc_ver loader allow_beta := by
    rw [heq]
    exact List.mem_append_left _ hg
  have hgfalse : isMaxIn (candidatesOf files mc_ver loader allow_beta) g = false :=
    hall g hg
  have hex : ∃ g2 ∈ candidatesOf files mc_ver loader allow_beta,
      keyLt g g2 = true := by
    rw [isMaxIn] at hgfalse
    obtain ⟨g2, hg2, hlt⟩ := List.all_eq_false.mp hgfalse
    exact ⟨g2, hg2, by simpa using hlt⟩
  obtain ⟨g2, hg2mem, hglt⟩ := hex
  rcases strLt_trichotomy (keyOf g).data (keyOf r).data with hlt | hdata | hgt
  · exact hlt
  · rw [keyLt] at hglt
    rw [hdata] at hglt
    have hmr := hmax2 g2 hg2mem
    rw [keyLt] at hmr
    rw [hglt] at hmr
    exact absurd hmr (by simp)
  · have : keyLt r g2 = true := strLt_trans hgt hglt
    rw [hmax2 g2 hg2mem] at this
    exact absurd this (by simp)

/-- C1 witness: the two-file example of the specification, where the
February file is picked. -/
theorem pick_latest_release_max_stable_witness :
    candidatesOf [janFile, febFile] "1.20.1" "Forge" false ≠ [] ∧
    (∃ r l₁ l₂,
      pick_latest_release [janFile, febFile] "1.20.1" "Forge" false = some r ∧
      candidatesOf [janFile, febFile] "1.20.1" "Forge" false = l₁ ++ r :: l₂ ∧
      (∀ g ∈ candidatesOf [janFile, febFile] "1.20.1" "Forge" false,
        keyLt r g = false) ∧
      (∀ g ∈ l₁, keyLt g r = true)) ∧
    pick_latest_release [janFile, febFile] "1.20.1" "Forge" false =
      some febFile :=
  ⟨by decide,
    pick_latest_release_max_stable [janFile, febFile] "1.20.1" "Forge" false
      (by decide),
    by decide⟩

/-- C2: the selector tries the release-only filter first and recomputes
with prereleases allowed only when that strict set is empty and
`allow_beta` holds; so whenever the strict set is non-empty the result
does not depend on `allow_beta`, and on the spec's single-beta-file
example it returns none without the flag and the file with it. -/
theorem strict_first_beta_fallback :
    (∀ (files : List FileRecord) (mc_ver loader : String) (allow_beta : Bool),
        files.filter (fun f => ok mc_ver loader f false) ≠ [] →
        pick_latest_release files mc_ver loader allow_beta =
          pick_latest_release files mc_ver loader false) ∧
    pick_latest_release [betaFile] "1.20.1" "Forge" false = none ∧
    pick_latest_release [betaFile] "1.20.1" "Forge" true = some betaFile := by
  refine ⟨?_, by decide, by decide⟩
  intro files mc_ver loader allow_beta h
  have hie : (files.filter (fun f => ok mc_ver loader f false)).isEmpty = false := by
    cases hi : (files.filter (fun f => ok mc_ver loader f false)).isEmpty with
    | false => rfl
    | true => exact absurd (List.isEmpty_iff.mp hi) h
  simp [pick_latest_release, candidatesOf, hie]

/-- C2 witness: on the two-release example the strict candidate set is
non-empty, so the `allow_beta` flag does not change the selection. -/
theorem strict_first_beta_fallback_witness :
    [janFile, febFile].filter (fun f => ok "1.20.1" "Forge" f false) ≠ [] ∧
    pick_latest_release [janFile, febFile] "1.20.1" "Forge" true =
      pick_latest_release [janFile, febFile] "1.20.1" "Forge" false :=
  ⟨by decide,
    strict_first_beta_fallback.1 [janFile, febFile] "1.20.1" "Forge" true
      (by decide)⟩

/-- C3: a record whose `releaseType` is 3, or whose `releaseType` key is
absent (the dict-access default makes it 3), fails the eligibility
predicate under both flag values and is never the record returned by
`pick_latest_release`, for any version, loader, and beta setting. -/
theorem alpha_never_selected :
    (∀ (mc_ver loader : String) (f : FileRecord),
        f.releaseType = some 3 ∨ f.releaseType = none →
        ok mc_ver loader f false = false ∧ ok mc_ver loader f true = false) ∧
    (∀ (files : List FileRecord) (mc_ver loader : String) (allow_beta : Bool)
        (r : FileRecord),
        pick_latest_release files mc_ver loader allow_beta = some r →
        ¬(r.releaseType = some 3 ∨ r.releaseType = none)) := by
  have hrt : ∀ (f : FileRecord),
      f.releaseType = some 3 ∨ f.releaseType = none → rtOf f = 3 := by
    intro f hf
    rcases hf with hf | hf <;> rw [rtOf, hf] <;> rfl
  constructor
  · intro mc_ver loader f hf
    constructor
    · cases h : ok mc_ver loader f false with
      | false => rfl
      | true => exact absurd (hrt f hf) (ok_rt_ne_three h)
    · cases h : ok mc_ver loader f true with
      | false => rfl
      | true => exact absurd (hrt f hf) (ok_rt_ne_three h)
  · intro files mc_ver loader allow_beta r hpick hf
    rcases mem_candidatesOf (pick_some_mem hpick) with h | h
    · exact absurd (hrt r hf) (ok_rt_ne_three h)
    · exact absurd (hrt r hf) (ok_rt_ne_three h)

/-- C3 witness: the alpha record fails the strict predicate. -/
theorem alpha_never_selected_witness :
    (alphaFile.releaseType = some 3 ∨ alphaFile.releaseType = none) ∧
    ok "1.20.1" "Forge" alphaFile false = false :=
  ⟨Or.inl rfl, (alpha_never_selected.1 "1.20.1" "Forge" alphaFile (Or.inl rfl)).1⟩

/-- C4: eligibility requires `mc_ver` to be a member of the record's
`gameVersions`, and, when the loader tag is non-empty, the tag as well;
with the empty loader tag the loader requirement disappears, so a
release whose `gameVersions` holds the MC version but no loader tag is
still eligible. -/
theorem eligibility_membership :
    (∀ (mc_ver loader : String) (f : FileRecord) (pre : Bool),
        ok mc_ver loader f pre = true →
        mc_ver ∈ gvOf f ∧ (loader ≠ "" → loader ∈ gvOf f)) ∧
    (∀ (mc_ver : String) (pre : Bool) (f : FileRecord),
        mc_ver ∈ gvOf f → rtOf f = 1 → ok mc_ver "" f pre = true) := by
  constructor
  · intro mc_ver loader f pre h
    obtain ⟨h1, h2, _, _⟩ := ok_true_facts h
    exact ⟨h1, h2⟩
  · intro mc_ver pre f hmem hrt
    cases pre <;> simp [ok, hmem, hrt]

/-- C4 witness: with `--loader ""`, a file listing only the MC version is
eligible. -/
theorem eligibility_membership_witness :
    "1.20.1" ∈ gvOf noLoaderFile ∧ rtOf noLoaderFile = 1 ∧
    ok "1.20.1" "" noLoaderFile false = true :=
  ⟨by decide, by decide,
    eligibility_membership.2 "1.20.1" false noLoaderFile (by decide) (by decide)⟩

/-- C5: the loader returns exactly the listed `projectID` values, in
order, for a manifest mapping with a `files` sequence of dicts; the same
for a bare sequence of dicts; and a sequence of integers is returned
unchanged. -/
theorem load_project_ids_shapes :
    (∀ (kvs : List (String × Json)) (xs ids : List Json),
        getKey "files" kvs = some (Json.arr xs) →
        List.Forall₂ entryHasID xs ids →
        load_project_ids (Json.obj kvs) = Except.ok ids) ∧
    (∀ (xs ids : List Json),
        List.Forall₂ entryHasID xs ids →
        load_project_ids (Json.arr xs) = Except.ok ids) ∧
    (∀ (xs : List Json), (∀ x ∈ xs, ∃ n, x = Json.int n) →
        load_project_ids (Json.arr xs) = Except.ok xs) := by
  refine ⟨?_, ?_, ?_⟩
  · intro kvs xs ids hk h
    simp only [load_project_ids, hk]
    exact projIDs_forall2 h
  · intro xs ids h
    have hobj := forall2_all_obj h
    simp only [load_project_ids]
    rw [if_pos hobj]
    exact projIDs_forall2 h
  · intro xs h
    cases xs with
    | nil => rfl
    | cons x rest =>
      have hint : (x :: rest).all Json.isIntB = true := by
        apply List.all_eq_true.mpr
        intro y hy
        obtain ⟨n, rfl⟩ := h y hy
        rfl
      have hobj : (x :: rest).all Json.isObjB = false := by
        apply List.all_eq_false.mpr
        refine ⟨x, List.mem_cons_self x rest, ?_⟩
        obtain ⟨n, rfl⟩ := h x (List.mem_cons_self x rest)
        simp [Json.isObjB]
      simp only [load_project_ids]
      rw [if_neg (by simp [hobj]), if_pos hint]

/-- C5 witness: a two-entry manifest yields its two ids in order;
a flat integer list comes back unchanged. -/
theorem load_project_ids_shapes_witness :
    getKey "files"
        [("files", Json.arr [Json.obj [("projectID", Json.int 11)],
          Json.obj [("projectID", Json.int 22)]])] =
      some (Json.arr [Json.obj [("projectID", Json.int 11)],
        Json.obj [("projectID", Json.int 22)]]) ∧
    load_project_ids
        (Json.obj [("files", Json.arr [Json.obj [("projectID", Json.int 11)],
          Json.obj [("projectID", Json.int 22)]])]) =
      Except.ok [Json.int 11, Json.int 22] ∧
    load_project_ids (Json.arr [Json.int 7, Json.int 9]) =
      Except.ok [Json.int 7, Json.int 9] :=
  ⟨rfl,
    load_project_ids_shapes.1
      [("files", Json.arr [Json.obj [("projectID", Json.int 11)],
        Json.obj [("projectID", Json.int 22)]])]
      [Json.obj [("projectID", Json.int 11)], Json.obj [("projectID", Json.int 22)]]
      [Json.int 11, Json.int 22] rfl
      (List.Forall₂.cons ⟨[("projectID", Json.int 11)], rfl, rfl⟩
        (List.Forall₂.cons ⟨[("projectID", Json.int 22)], rfl, rfl⟩
          List.Forall₂.nil)),
    load_project_ids_shapes.2.2 [Json.int 7, Json.int 9]
      (by intro x hx
          rcases List.mem_cons.mp hx with rfl | hx2
          · exact ⟨7, rfl⟩
          · rcases List.mem_cons.mp hx2 with rfl | hx3
            · exact ⟨9, rfl⟩
            · cases hx3)⟩

/-- C6: any parsed value that is not a mapping containing `files`, not an
all-dict sequence, and not an all-int sequence makes the loader raise
the SystemExit with the unrecognized-format message instead of
returning anything. -/
theorem load_project_ids_unrecognized (j : Json)
    (hobj : ∀ kvs, j = Json.obj kvs → getKey "files" kvs = none)
    (harr : ∀ xs, j = Json.arr xs →
      xs.all Json.isObjB = false ∧ xs.all Json.isIntB = false) :
    load_project_ids j = Except.error (PyErr.systemExit unrecognizedMsg) := by
  cases j with
  | int n => rfl
  | str s => rfl
  | null => rfl
  | arr xs =>
    obtain ⟨h1, h2⟩ := harr xs rfl
    simp only [load_project_ids]
    rw [if_neg (by simp [h1]), if_neg (by simp [h2])]
  | obj kvs =>
    have hk := hobj kvs rfl
    simp only [load_project_ids, hk]

/-- C6 witness: a list mixing an integer and a dict, and a mapping
without `files`, both raise the unrecognized-format SystemExit. -/
theorem load_project_ids_unrecognized_witness :
    load_project_ids (Json.arr [Json.int 1, Json.obj []]) =
      Except.error (PyErr.systemExit unrecognizedMsg) ∧
    load_project_ids (Json.obj [("notfiles", Json.null)]) =
      Except.error (PyErr.systemExit unrecognizedMsg) :=
  ⟨load_project_ids_unrecognized (Json.arr [Json.int 1, Json.obj []])
      (by intro kvs h; cases h)
      (by intro xs h
          cases h
          exact ⟨by decide, by decide⟩),
    load_project_ids_unrecognized (Json.obj [("notfiles", Json.null)])
      (by intro kvs h
          cases h
          rfl)
      (by intro xs h; cases h)⟩

/-- C7: with the API key unset `main` aborts at once with the missing-key
SystemExit, before loading the input and before any directory or network
effect; with a key present but an input whose loading fails, the run
aborts with that error, again with an empty effect trace. -/
theorem abort_before_side_effects :
    (∀ (input : Json) (dirListing : List String)
        (fetch : Json → Except PyErr (List FileRecord))
        (dl : String → Except PyErr Unit)
        (mc_ver loader : String) (allow_beta : Bool),
        mainRun none input dirListing fetch dl mc_ver loader allow_beta =
          ([], Except.error
            (PyErr.systemExit "Missing CURSEFORGE_API_KEY env var"))) ∧
    (∀ (k : String) (input : Json) (dirListing : List String)
        (fetch : Json → Except PyErr (List FileRecord))
        (dl : String → Except PyErr Unit)
        (mc_ver loader : String) (allow_beta : Bool) (e : PyErr),
        k ≠ "" → load_project_ids input = Except.error e →
        mainRun (some k) input dirListing fetch dl mc_ver loader allow_beta =
          ([], Except.error e)) := by
  constructor
  · intro input dirListing fetch dl mc_ver loader allow_beta
    rfl
  · intro k input dirListing fetch dl mc_ver loader allow_beta e hk hl
    rw [mainRun, show (some k).getD "" = k from rfl, if_neg hk]
    simp only [hl]

/-- C7 witness: with no key, a malformed input still produces the
missing-key abort (the key check comes first); with a key, the
unrecognized-format abort leaves an empty trace. -/
theorem abort_before_side_effects_witness :
    mainRun none Json.null [] exFetch exDl "1.20.1" "Forge" false =
      ([], Except.error
        (PyErr.systemExit "Missing CURSEFORGE_API_KEY env var")) ∧
    ("KEY" ≠ "") ∧
    load_project_ids Json.null =
      Except.error (PyErr.systemExit unrecognizedMsg) ∧
    mainRun (some "KEY") Json.null [] exFetch exDl "1.20.1" "Forge" false =
      ([], Except.error (PyErr.systemExit unrecognizedMsg)) :=
  ⟨abort_before_side_effects.1 Json.null [] exFetch exDl "1.20.1" "Forge" false,
    by decide, rfl,
    abort_before_side_effects.2 "KEY" Json.null [] exFetch exDl "1.20.1" "Forge"
      false (PyErr.systemExit unrecognizedMsg) (by decide) rfl⟩

/-- C8: on a run that passes the configuration checks, the effect trace
is `makedirs`, then a `removeJar` for exactly the listing entries whose
name ends in `.jar` (case-sensitive suffix) and nothing else, then the
loop effects, which never remove; consequently names without the suffix
survive the run, and any `.jar` name present afterwards was written by
this run. -/
theorem preclean_exact_append_only (k : String) (input : Json)
    (dirListing : List String)
    (fetch : Json → Except PyErr (List FileRecord))
    (dl : String → Except PyErr Unit)
    (mc_ver loader : String) (allow_beta : Bool) (pids : List Json)
    (hk : k ≠ "") (hl : load_project_ids input = Except.ok pids) :
    (mainRun (some k) input dirListing fetch dl mc_ver loader allow_beta).1 =
      Effect.makedirs ::
        ((dirListing.filter hasJarSuffix).map Effect.removeJar ++
          (runLoop mc_ver loader allow_beta fetch dl pids).1) ∧
    (∀ n, Effect.removeJar n ∈
        (mainRun (some k) input dirListing fetch dl mc_ver loader allow_beta).1 →
        hasJarSuffix n = true ∧ n ∈ dirListing) ∧
    (∀ n, n ∈ dirListing → hasJarSuffix n = false →
        n ∈ ((mainRun (some k) input dirListing fetch dl mc_ver loader
          allow_beta).1).foldl applyEffect dirListing) ∧
    (∀ n, n ∈ ((mainRun (some k) input dirListing fetch dl mc_ver loader
          allow_beta).1).foldl applyEffect dirListing →
        hasJarSuffix n = true →
        Effect.write n ∈
          (mainRun (some k) input dirListing fetch dl mc_ver loader
            allow_beta).1) := by
  have htr : (mainRun (some k) input dirListing fetch dl mc_ver loader
      allow_beta).1 =
      Effect.makedirs ::
        ((dirListing.filter hasJarSuffix).map Effect.removeJar ++
          (runLoop mc_ver loader allow_beta fetch dl pids).1) := by
    rw [mainRun, show (some k).getD "" = k from rfl, if_neg hk]
    simp only [hl]
  have h2 : ∀ n, Effect.removeJar n ∈
      (mainRun (some k) input dirListing fetch dl mc_ver loader allow_beta).1 →
      hasJarSuffix n = true ∧ n ∈ dirListing := by
    intro n hn
    rw [htr] at hn
    rcases List.mem_cons.mp hn with h | h
    · exact absurd h (by simp)
    · rcases List.mem_append.mp h with hb | hb
      · obtain ⟨m, hm, heq⟩ := List.mem_map.mp hb
        obtain ⟨hmem, hjar⟩ := List.mem_filter.mp hm
        have hmn : m = n := by injection heq
        subst hmn
        exact ⟨hjar, hmem⟩
      · exact absurd hb (runLoop_no_remove _ _ _ _ _ _ n)
  have h3 : ∀ n, n ∈ dirListing → hasJarSuffix n = false →
      n ∈ ((mainRun (some k) input dirListing fetch dl mc_ver loader
        allow_beta).1).foldl applyEffect dirListing := by
    intro n hmem hjar
    apply mem_foldl_of_no_remove _ _ _ hmem
    intro hcon
    have := (h2 n hcon).1
    rw [hjar] at this
    exact Bool.false_ne_true this
  have h4 : ∀ n, n ∈ ((mainRun (some k) input dirListing fetch dl mc_ver
        loader allow_beta).1).foldl applyEffect dirListing →
      hasJarSuffix n = true →
      Effect.write n ∈
        (mainRun (some k) input dirListing fetch dl mc_ver loader
          allow_beta).1 := by
    intro n hn hjar
    rw [htr, List.foldl_cons,
      show applyEffect dirListing Effect.makedirs = dirListing from rfl,
      List.foldl_append] at hn
    rcases mem_foldl_imp _ _ _ hn with h5 | h5
    · obtain ⟨hin, hnotin⟩ := mem_foldl_removes _ _ _ h5
      exact absurd (List.mem_filter.mpr ⟨hin, hjar⟩) hnotin
    · rw [htr]
      exact List.mem_cons_of_mem _ (List.mem_append_right _ h5)
  exact ⟨htr, h2, h3, h4⟩

/-- C8 witness: a concrete run over an empty project list with one stale
jar and one text file in the staging directory. -/
theorem preclean_exact_append_only_witness :
    ("KEY" ≠ "") ∧
    load_project_ids (Json.arr []) = Except.ok [] ∧
    (mainRun (some "KEY") (Json.arr []) ["old.jar", "keep.txt"] exFetch exDl
        "1.20.1" "Forge" false).1 =
      Effect.makedirs ::
        ((["old.jar", "keep.txt"].filter hasJarSuffix).map Effect.removeJar ++
          (runLoop "1.20.1" "Forge" false exFetch exDl []).1) :=
  ⟨by decide, rfl,
    (preclean_exact_append_only "KEY" (Json.arr []) ["old.jar", "keep.txt"]
      exFetch exDl "1.20.1" "Forge" false [] (by decide) rfl).1⟩

/-- C9: the empty JSON list is accepted (the all-dicts homogeneity test
holds vacuously) and yields the empty id list, so the run performs the
pre-clean and then downloads nothing: the loop contributes only the
completion message and the run succeeds. -/
theorem empty_input_runs_clean :
    load_project_ids (Json.arr []) = Except.ok [] ∧
    (∀ (k : String) (dirListing : List String)
        (fetch : Json → Except PyErr (List FileRecord))
        (dl : String → Except PyErr Unit)
        (mc_ver loader : String) (allow_beta : Bool), k ≠ "" →
        mainRun (some k) (Json.arr []) dirListing fetch dl mc_ver loader
            allow_beta =
          (Effect.makedirs ::
              ((dirListing.filter hasJarSuffix).map Effect.removeJar ++
                [Effect.printDone]),
            Except.ok ())) := by
  refine ⟨rfl, ?_⟩
  intro k dirListing fetch dl mc_ver loader allow_beta hk
  rw [mainRun, show (some k).getD "" = k from rfl, if_neg hk]
  rfl

/-- C9 witness: a concrete empty-list run. -/
theorem empty_input_runs_clean_witness :
    ("KEY" ≠ "") ∧
    mainRun (some "KEY") (Json.arr []) ["a.jar"] exFetch exDl "1.20.1" "Forge"
        false =
      (Effect.makedirs ::
          (((["a.jar"] : List String).filter hasJarSuffix).map Effect.removeJar ++
            [Effect.printDone]),
        Except.ok ()) :=
  ⟨by decide,
    empty_input_runs_clean.2 "KEY" ["a.jar"] exFetch exDl "1.20.1" "Forge"
      false (by decide)⟩

/-- C10: a record whose `gameVersions` key is absent or null reads as the
empty version set, fails the eligibility predicate for every version,
loader, and flag, and is never the record `pick_latest_release`
returns. -/
theorem missing_gameVersions_never_selected :
    (∀ (mc_ver loader : String) (f : FileRecord) (pre : Bool),
        f.gameVersions = none → ok mc_ver loader f pre = false) ∧
    (∀ (files : List FileRecord) (mc_ver loader : String) (allow_beta : Bool)
        (r : FileRecord),
        pick_latest_release files mc_ver loader allow_beta = some r →
        r.gameVersions ≠ none) := by
  have hgv : ∀ (mc_ver loader : String) (f : FileRecord) (pre : Bool),
      f.gameVersions = none → ok mc_ver loader f pre = false := by
    intro mc_ver loader f pre hf
    cases h : ok mc_ver loader f pre with
    | false => rfl
    | true =>
      have hmem := (ok_true_facts h).1
      rw [gvOf, hf] at hmem
      cases hmem
  refine ⟨hgv, ?_⟩
  intro files mc_ver loader allow_beta r hpick hf
  rcases mem_candidatesOf (pick_some_mem hpick) with h | h
  · rw [hgv mc_ver loader r false hf] at h
    exact Bool.false_ne_true h
  · rw [hgv mc_ver loader r true hf] at h
    exact Bool.false_ne_true h

/-- C10 witness: the record lacking `gameVersions` is ineligible. -/
theorem missing_gameVersions_never_selected_witness :
    noGvFile.gameVersions = none ∧
    ok "1.20.1" "Forge" noGvFile false = false :=
  ⟨rfl, missing_gameVersions_never_selected.1 "1.20.1" "Forge" noGvFile false rfl⟩

end DownloadMods
